import Mathlib

set_option maxRecDepth 8192
set_option maxHeartbeats 1000000

/-!
Shallow embedding of `src/fetch.py` (RSS Digest Generator) and proofs about
its feed-fetch-and-normalize pipeline.

Text is modelled as `List Char` (Python `str` length and slicing count code
points, as `List Char` does).  Network I/O and the clock are injected as
explicit parameters: `fetch_feed` receives the outcome of the
`requests.get`/`feedparser.parse` attempt and the precomputed `cutoff`
timestamp (`datetime.now(timezone.utc) - timedelta(hours=max_age_hours)`).
All datetimes in the program carry `tzinfo=timezone.utc`, so the timezone is
not represented; Python datetime comparison is the lexicographic order on
(year, month, day, hour, minute, second, microsecond).
-/

/-! ### Python text primitives (src/fetch.py `_clean_summary`, line 67) -/

/-- ASCII whitespace as recognised by Python `str.split()` / `str.strip()`
(the extra Unicode whitespace Python also accepts is not exercised here). -/
def pyIsSpace (c : Char) : Bool :=
  c = ' ' || c = '\t' || c = '\n' || c = '\r' || c = '\x0b' || c = '\x0c'

/-- Python `s.strip()`: remove leading and trailing whitespace
(used on the title at src/fetch.py line 67). -/
def pyStrip (l : List Char) : List Char :=
  ((l.dropWhile pyIsSpace).reverse.dropWhile pyIsSpace).reverse

/-- Python `" ".join(s.split())` (src/fetch.py line 88): `split()` yields the
maximal whitespace-free runs (no empty tokens), and `join` puts a single
space between them. -/
def collapseWs (l : List Char) : List Char :=
  List.intercalate [' '] ((l.splitOnP pyIsSpace).filter (fun w => !w.isEmpty))

/-- Helper for `chopTag`: the regex fragment scanning `[^>]*>` after the
first non-`>` character; returns the text after the closing `>`. -/
def chopTagGo : List Char → Option (List Char)
  | [] => none
  | c :: rest => if c = '>' then some rest else chopTagGo rest

/-- Given the text following a `<`, consume a match of `[^>]+>` (at least one
non-`>` character, then the first `>`), per the regex `<[^>]+>` at
src/fetch.py line 86; `none` when no match starts at this `<`. -/
def chopTag : List Char → Option (List Char)
  | [] => none
  | c :: rest => if c = '>' then none else chopTagGo rest

/-- `re.sub(r"<[^>]+>", "", s)`: delete every leftmost non-overlapping match,
scanning left to right.  `fuel` bounds the recursion; the top-level wrapper
passes the input length, which suffices since every step consumes at least
one character. -/
def stripTagsGo : Nat → List Char → List Char
  | _, [] => []
  | 0, l => l
  | fuel + 1, c :: rest =>
    if c = '<' then
      match chopTag rest with
      | some rest2 => stripTagsGo fuel rest2
      | none => c :: stripTagsGo fuel rest
    else c :: stripTagsGo fuel rest

/-- `re.sub(r"<[^>]+>", "", s)` (src/fetch.py line 86). -/
def stripTags (l : List Char) : List Char := stripTagsGo l.length l

/-- Python `s.replace("&amp;", "&")` (src/fetch.py line 87): replace the
leftmost occurrence and resume scanning after the consumed occurrence
(the emitted replacement is not rescanned). -/
def replaceAmp : List Char → List Char
  | '&' :: 'a' :: 'm' :: 'p' :: ';' :: rest => '&' :: replaceAmp rest
  | c :: rest => c :: replaceAmp rest
  | [] => []

/-- Python `s.replace("&lt;", "<")` (src/fetch.py line 87). -/
def replaceLt : List Char → List Char
  | '&' :: 'l' :: 't' :: ';' :: rest => '<' :: replaceLt rest
  | c :: rest => c :: replaceLt rest
  | [] => []

/-- Python `s.replace("&gt;", ">")` (src/fetch.py line 87). -/
def replaceGt : List Char → List Char
  | '&' :: 'g' :: 't' :: ';' :: rest => '>' :: replaceGt rest
  | c :: rest => c :: replaceGt rest
  | [] => []

/-- Python `s.replace("&#39;", "'")` (src/fetch.py line 87). -/
def replaceApos : List Char → List Char
  | '&' :: '#' :: '3' :: '9' :: ';' :: rest => '\'' :: replaceApos rest
  | c :: rest => c :: replaceApos rest
  | [] => []

/-- Python `s.replace("&quot;", "\"")` (src/fetch.py line 87). -/
def replaceQuot : List Char → List Char
  | '&' :: 'q' :: 'u' :: 'o' :: 't' :: ';' :: rest => '"' :: replaceQuot rest
  | c :: rest => c :: replaceQuot rest
  | [] => []

/-- The entity-decoding chain of src/fetch.py line 87, in source order:
`&amp;` first, then `&lt;`, `&gt;`, `&#39;`, `&quot;`. -/
def decodeEntities (l : List Char) : List Char :=
  replaceQuot (replaceApos (replaceGt (replaceLt (replaceAmp l))))

/-- `_clean_summary` (src/fetch.py lines 83-89): strip tags, decode the five
entities, collapse whitespace, then truncate to 280 characters plus a single
ellipsis character when longer. -/
def _clean_summary (raw : List Char) : List Char :=
  let clean1 := stripTags raw
  let clean2 := decodeEntities clean1
  let clean3 := collapseWs clean2
  if 280 < clean3.length then clean3.take 280 ++ ['…'] else clean3

/-- Modelled from the spec (§4.1): a single-pass decoder that decodes exactly
the five entities `&amp; &lt; &gt; &#39; &quot;` and alters nothing else.
Used as the comparison point for the code's sequential replacement chain. -/
def specDecodeEntities : List Char → List Char
  | '&' :: 'a' :: 'm' :: 'p' :: ';' :: rest => '&' :: specDecodeEntities rest
  | '&' :: 'l' :: 't' :: ';' :: rest => '<' :: specDecodeEntities rest
  | '&' :: 'g' :: 't' :: ';' :: rest => '>' :: specDecodeEntities rest
  | '&' :: '#' :: '3' :: '9' :: ';' :: rest => '\'' :: specDecodeEntities rest
  | '&' :: 'q' :: 'u' :: 'o' :: 't' :: ';' :: rest => '"' :: specDecodeEntities rest
  | c :: rest => c :: specDecodeEntities rest
  | [] => []

/-! ### Timestamps (src/fetch.py `parse_published`, lines 28-34) -/

/-- `time.struct_time` as exposed by feedparser on `entry.published_parsed` /
`entry.updated_parsed`: nine integer components.  Only the first six are
consumed by the program (`datetime(*t[:6], tzinfo=timezone.utc)`). -/
structure StructTime where
  tm_year : Nat
  tm_mon : Nat
  tm_mday : Nat
  tm_hour : Nat
  tm_min : Nat
  tm_sec : Nat
  tm_wday : Nat
  tm_yday : Nat
  tm_isdst : Nat
deriving DecidableEq, Repr

/-- A Python `datetime` (always `tzinfo=timezone.utc` in this program).
`datetime(*t[:6], tzinfo=timezone.utc)` leaves `microsecond = 0`;
`datetime.now` does not, so the cutoff may carry microseconds. -/
structure PyDateTime where
  year : Nat
  month : Nat
  day : Nat
  hour : Nat
  minute : Nat
  second : Nat
  micro : Nat
deriving DecidableEq, Repr

/-- `datetime(*t[:6], tzinfo=timezone.utc)` (src/fetch.py line 33). -/
def dtOfStruct (t : StructTime) : PyDateTime :=
  ⟨t.tm_year, t.tm_mon, t.tm_mday, t.tm_hour, t.tm_min, t.tm_sec, 0⟩

/-- Comparison key: equal-timezone Python datetimes compare lexicographically
on their components. -/
def DTKey : Type :=
  Lex (Nat × Lex (Nat × Lex (Nat × Lex (Nat × Lex (Nat × Lex (Nat × Nat))))))

instance : LinearOrder DTKey := by
  unfold DTKey; infer_instance

instance : DecidableEq DTKey := by
  unfold DTKey; infer_instance

def dtKey (d : PyDateTime) : DTKey :=
  toLex (d.year, toLex (d.month, toLex (d.day, toLex (d.hour,
    toLex (d.minute, toLex (d.second, d.micro))))))

/-- Python `a < b` on UTC datetimes. -/
def pyDTlt (a b : PyDateTime) : Bool := decide (dtKey a < dtKey b)

/-- `datetime.min.replace(tzinfo=timezone.utc)` (src/fetch.py line 111):
year 1, month 1, day 1, midnight. -/
def dtMin : PyDateTime := ⟨1, 1, 1, 0, 0, 0, 0⟩

/-! ### Raw entries and parsed articles -/

/-- One raw feedparser entry.  feedparser entries are dict-like; a field may
be missing.  For the `*_parsed` attributes, `getattr(entry, attr, None)`
conflates a missing attribute with an attribute set to `None` (feedparser
stores `None` for unparseable dates), so `none` models both. -/
structure Entry where
  title : Option (List Char)
  link : Option (List Char)
  summary : Option (List Char)
  published_parsed : Option StructTime
  updated_parsed : Option StructTime
deriving DecidableEq, Repr

/-- `parse_published` (src/fetch.py lines 28-34): try `published_parsed`
first, then `updated_parsed`; a present truthy struct_time (a struct_time is
a nonempty 9-tuple, hence always truthy) yields
`datetime(*t[:6], tzinfo=timezone.utc)`; otherwise `None`. -/
def parse_published (e : Entry) : Option PyDateTime :=
  match e.published_parsed with
  | some t => some (dtOfStruct t)
  | none =>
    match e.updated_parsed with
    | some t => some (dtOfStruct t)
    | none => none

/-- One feed's configuration entry from feeds.yaml: `url`, `name`, and an
optional `category` (src/fetch.py lines 39-41). -/
structure FeedSource where
  url : List Char
  name : List Char
  category : Option (List Char)
deriving DecidableEq, Repr

/-- A normalized article dict (src/fetch.py lines 66-74). -/
structure Article where
  title : List Char
  link : List Char
  summary : List Char
  published : Option PyDateTime
  published_str : List Char
  source : List Char
  category : List Char
deriving DecidableEq, Repr

/-- `"%b"` month abbreviation for `strftime` (empty for out-of-range months,
which a validated `datetime` cannot carry). -/
def monthAbbrev (m : Nat) : List Char :=
  match m with
  | 1 => "Jan".toList
  | 2 => "Feb".toList
  | 3 => "Mar".toList
  | 4 => "Apr".toList
  | 5 => "May".toList
  | 6 => "Jun".toList
  | 7 => "Jul".toList
  | 8 => "Aug".toList
  | 9 => "Sep".toList
  | 10 => "Oct".toList
  | 11 => "Nov".toList
  | 12 => "Dec".toList
  | _ => []

/-- `pub.strftime("%-I:%M %p · %b %-d")` (src/fetch.py line 71): 12-hour
clock without leading zero, zero-padded minute, AM/PM, month abbreviation,
day without leading zero. -/
def fmtPub (d : PyDateTime) : List Char :=
  let h12 := if d.hour % 12 = 0 then 12 else d.hour % 12
  let mm := if d.minute < 10 then '0' :: (toString d.minute).toList
            else (toString d.minute).toList
  let ampm := if d.hour < 12 then "AM".toList else "PM".toList
  (toString h12).toList ++ [':'] ++ mm ++ [' '] ++ ampm ++ " · ".toList
    ++ monthAbbrev d.month ++ [' '] ++ (toString d.day).toList

/-- The article dict built at src/fetch.py lines 66-74 for one raw entry,
with the feed's `name` and `category` (already defaulted) in scope. -/
def mkArticle (name category : List Char) (e : Entry) : Article :=
  let pub := parse_published e
  { title := pyStrip ((e.title).getD ("No title".toList))
    link := (e.link).getD ("#".toList)
    summary := _clean_summary ((e.summary).getD [])
    published := pub
    published_str :=
      match pub with
      | some d => fmtPub d
      | none => "Date unknown".toList
    source := name
    category := category }

/-! ### fetch_feed (src/fetch.py lines 37-80) -/

/-- The loop guard `if pub and pub < cutoff: continue` (src/fetch.py
line 63): true exactly when the entry has a parsed timestamp strictly older
than the cutoff. -/
def tooOld (cutoff : PyDateTime) (e : Entry) : Bool :=
  match parse_published e with
  | some d => pyDTlt d cutoff
  | none => false

/-- The `for entry in parsed.entries[:max_articles * 2]` loop (src/fetch.py
lines 59-77), started with remaining capacity `n = max_articles`: skip
entries that are too old without consuming capacity, otherwise append the
parsed article; after an append, `len(articles) >= max_articles` (that is,
remaining capacity `n ≤ 1`) breaks the loop. -/
def scanLoop (name category : List Char) (cutoff : PyDateTime) :
    List Entry → Nat → List Article
  | [], _ => []
  | e :: rest, n =>
    if tooOld cutoff e then scanLoop name category cutoff rest n
    else
      let a := mkArticle name category e
      if n ≤ 1 then [a] else a :: scanLoop name category cutoff rest (n - 1)

/-- Outcome of the guarded I/O at src/fetch.py lines 44-47: either some
exception was raised by `requests.get` / `raise_for_status` /
`feedparser.parse` (timeout, connection error, non-success status, ...), or
parsing completed and produced a list of raw entries. -/
inductive FetchOutcome where
  | exn : List Char → FetchOutcome
  | ok : List Entry → FetchOutcome
deriving DecidableEq, Repr

/-- `fetch_feed` (src/fetch.py lines 37-80) with its I/O injected:
an exception yields `[]` (lines 48-50); zero parsed entries yield `[]`
(lines 52-54); otherwise the capped, age-filtered scan of the first
`2 * max_articles` entries.  `cutoff` stands for
`datetime.now(timezone.utc) - timedelta(hours=max_age_hours)`, computed once
before the scan (line 56). -/
def fetch_feed (src : FeedSource) (outcome : FetchOutcome)
    (cutoff : PyDateTime) (max_articles : Nat) : List Article :=
  let name := src.name
  let category := (src.category).getD ("General".toList)
  match outcome with
  | .exn _ => []
  | .ok entries =>
    if entries.isEmpty then []
    else scanLoop name category cutoff (entries.take (max_articles * 2))
      max_articles

/-! ### build_digest aggregation (src/fetch.py lines 100-118) -/

/-- The per-feed accumulation loop (src/fetch.py lines 103-105):
`all_articles.extend(fetch_feed(...))` over the configured feeds in order;
each feed's fetch outcome is injected alongside its configuration. -/
def collectArticles (feeds : List (FeedSource × FetchOutcome))
    (cutoff : PyDateTime) (max_articles : Nat) : List Article :=
  (feeds.map (fun p => fetch_feed p.1 p.2 cutoff max_articles)).flatten

/-- The sort key of src/fetch.py line 111:
`a["published"] or datetime.min.replace(tzinfo=timezone.utc)` (a datetime is
always truthy, so `or` is `Option.getD`). -/
def sortKey (a : Article) : DTKey := dtKey ((a.published).getD dtMin)

/-- `all_articles.sort(key=..., reverse=True)` (src/fetch.py line 111):
Python's sort is stable, and `reverse=True` orders keys descending while
still keeping equal-key elements in their original order; this is exactly
stable merge sort with the relation `sortKey b ≤ sortKey a`. -/
def sortArticles (l : List Article) : List Article :=
  l.mergeSort (fun a b => decide (sortKey b ≤ sortKey a))

/-- One step of `grouped.setdefault(article["category"], []).append(article)`
(src/fetch.py lines 117-118) on an insertion-ordered association list (a
Python dict preserves insertion order; `setdefault` appends a fresh key at
the end). -/
def updateGroups (gs : List (List Char × List Article)) (a : Article) :
    List (List Char × List Article) :=
  match gs with
  | [] => [(a.category, [a])]
  | (k, b) :: rest =>
    if k = a.category then (k, b ++ [a]) :: rest
    else (k, b) :: updateGroups rest a

/-- The grouping loop of src/fetch.py lines 116-118 over a list of articles
(applied to the globally sorted list in `build_digest`). -/
def groupByCategory (l : List Article) : List (List Char × List Article) :=
  l.foldl updateGroups []

/-- `pat` occurs as a contiguous run somewhere in the list. -/
def containsSeq (pat : List Char) : List Char → Bool
  | [] => pat.isEmpty
  | c :: rest => pat.isPrefixOf (c :: rest) || containsSeq pat rest

/-- No double-escaped entity: none of `&amp;lt;`, `&amp;gt;`, `&amp;#39;`,
`&amp;quot;` occurs in the text.  On such occurrences the sequential
replacement chain of line 87 decodes twice (the `&` produced by the `&amp;`
replacement merges with the following text). -/
def noDoubleEscape (l : List Char) : Bool :=
  !(containsSeq ['&', 'a', 'm', 'p', ';', 'l', 't', ';'] l)
    && !(containsSeq ['&', 'a', 'm', 'p', ';', 'g', 't', ';'] l)
    && !(containsSeq ['&', 'a', 'm', 'p', ';', '#', '3', '9', ';'] l)
    && !(containsSeq ['&', 'a', 'm', 'p', ';', 'q', 'u', 'o', 't', ';'] l)

/-! ### Lemmas about the entry scan -/

/-- With at least one unit of capacity, the scan loop is: keep the entries
that pass the age filter, cap at the remaining capacity, parse each. -/
theorem scanLoop_eq_filter_take (name category : List Char)
    (cutoff : PyDateTime) (l : List Entry) : ∀ n : Nat, 1 ≤ n →
    scanLoop name category cutoff l n =
      ((l.filter (fun e => !tooOld cutoff e)).take n).map
        (mkArticle name category) := by
  induction l with
  | nil => intro n hn; simp [scanLoop]
  | cons e rest ih =>
    intro n hn
    by_cases h : tooOld cutoff e
    · simp [scanLoop, h, List.filter_cons, ih n hn]
    · obtain ⟨m, rfl⟩ : ∃ m, n = m + 1 :=
        ⟨n - 1, (Nat.succ_pred_eq_of_pos hn).symm⟩
      cases m with
      | zero => simp [scanLoop, h, List.filter_cons]
      | succ k =>
        have ih2 := ih (k + 1) (Nat.le_add_left 1 k)
        simp [scanLoop, h, List.filter_cons, List.take_succ_cons, ih2]

/-- Closed form of a successful fetch: scan the first `2 × max` raw entries,
drop the too-old dated ones, cap at `max`, parse each in upstream order. -/
theorem fetch_feed_ok_eq (src : FeedSource) (entries : List Entry)
    (cutoff : PyDateTime) (max_articles : Nat) :
    fetch_feed src (.ok entries) cutoff max_articles =
      (((entries.take (max_articles * 2)).filter
          (fun e => !tooOld cutoff e)).take max_articles).map
        (mkArticle src.name ((src.category).getD ("General".toList))) := by
  cases max_articles with
  | zero => cases entries <;> simp [fetch_feed, scanLoop]
  | succ k =>
    cases entries with
    | nil => simp [fetch_feed]
    | cons e rest =>
      simp only [fetch_feed, List.isEmpty_cons, Bool.false_eq_true, if_false]
      rw [scanLoop_eq_filter_take _ _ _ _ _ (Nat.le_add_left 1 k)]

/-- C2: every failure during retrieval or parsing (timeout, connection
error, non-success status — any raised exception) and every parse producing
zero entries makes `fetch_feed` return the empty list, with no exception
propagating (the model is total), and removing such a feed from a run leaves
the collected articles of the remaining feeds unchanged. -/
theorem fetch_feed_failure_isolated :
    ∀ (src : FeedSource) (cutoff : PyDateTime) (n : Nat) (reason : List Char)
      (pre post : List (FeedSource × FetchOutcome)),
    fetch_feed src (.exn reason) cutoff n = []
    ∧ fetch_feed src (.ok []) cutoff n = []
    ∧ collectArticles (pre ++ (src, .exn reason) :: post) cutoff n =
        collectArticles (pre ++ post) cutoff n := by
  intro src cutoff n reason pre post
  refine ⟨rfl, by simp [fetch_feed], ?_⟩
  simp [collectArticles, fetch_feed]

/-- C9: the published timestamp is resolved from `published_parsed` first,
else `updated_parsed`, else absent; when present it is built from the first
six struct_time components (year, month, day, hour, minute, second), with
microsecond 0, interpreted as UTC. -/
theorem parse_published_resolution :
    ∀ e : Entry,
    (∀ t : StructTime, e.published_parsed = some t →
      parse_published e =
        some ⟨t.tm_year, t.tm_mon, t.tm_mday, t.tm_hour, t.tm_min, t.tm_sec, 0⟩)
    ∧ (e.published_parsed = none → ∀ t : StructTime, e.updated_parsed = some t →
      parse_published e =
        some ⟨t.tm_year, t.tm_mon, t.tm_mday, t.tm_hour, t.tm_min, t.tm_sec, 0⟩)
    ∧ (e.published_parsed = none → e.updated_parsed = none →
      parse_published e = none) := by
  intro e
  refine ⟨fun t h => ?_, fun h t h2 => ?_, fun h h2 => ?_⟩ <;>
    simp [parse_published, dtOfStruct, h] <;> simp [h2]

/-- Witness for C9 at a concrete entry carrying only `updated_parsed`. -/
theorem parse_published_resolution_witness :
    parse_published
        (Entry.mk none none none none
          (some ⟨2026, 10, 12, 3, 4, 5, 6, 285, 0⟩)) =
      some ⟨2026, 10, 12, 3, 4, 5, 0⟩ :=
  (parse_published_resolution _).2.1 rfl _ rfl

/-- C7 (amended): the `"No title"` / `"#"` defaults apply exactly when the
field is missing; a present field is used as supplied (the title
additionally stripped of surrounding whitespace), even when empty. -/
theorem title_link_defaults :
    ∀ (name category : List Char) (e : Entry),
    (e.title = none → (mkArticle name category e).title = ("No title".toList))
    ∧ (∀ s, e.title = some s → (mkArticle name category e).title = pyStrip s)
    ∧ (e.link = none → (mkArticle name category e).link = ("#".toList))
    ∧ (∀ s, e.link = some s → (mkArticle name category e).link = s) := by
  intro name category e
  refine ⟨fun h => ?_, fun s h => ?_, fun h => ?_, fun s h => ?_⟩ <;>
      simp [mkArticle, h]
  decide

/-- Counterexample for C7 as stated: an entry whose title and link are
present but empty keeps the empty strings; the defaults are not applied. -/
theorem title_link_defaults_counterexample :
    (Entry.mk (some []) (some []) none none none).title = some []
    ∧ (mkArticle ("Feed".toList) ("General".toList)
        (Entry.mk (some []) (some []) none none none)).title
        ≠ ("No title".toList)
    ∧ (mkArticle ("Feed".toList) ("General".toList)
        (Entry.mk (some []) (some []) none none none)).link ≠ ("#".toList) := by
  refine ⟨rfl, ?_, ?_⟩ <;> decide

/-- Witness for C7's amended claim on an entry with both fields missing. -/
theorem title_link_defaults_witness :
    (mkArticle ("Feed".toList) ("General".toList)
      (Entry.mk none none none none none)).title = ("No title".toList)
    ∧ (mkArticle ("Feed".toList) ("General".toList)
      (Entry.mk none none none none none)).link = ("#".toList) :=
  ⟨(title_link_defaults ("Feed".toList) ("General".toList) _).1 rfl,
    (title_link_defaults ("Feed".toList) ("General".toList) _).2.2.1 rfl⟩

/-- C3: every dated article a fetch returns is no older than the cutoff;
an entry with an absent timestamp is never flagged by the age filter; and
skipped entries do not consume capacity (the scan is exactly
filter-then-cap on the first `2 × max` entries). -/
theorem fetch_feed_age_filter :
    ∀ (src : FeedSource) (outcome : FetchOutcome) (cutoff : PyDateTime)
      (n : Nat),
    (∀ a ∈ fetch_feed src outcome cutoff n, ∀ d : PyDateTime,
      a.published = some d → dtKey cutoff ≤ dtKey d)
    ∧ (∀ e : Entry, parse_published e = none → tooOld cutoff e = false)
    ∧ (∀ entries : List Entry, outcome = .ok entries →
        fetch_feed src outcome cutoff n =
          (((entries.take (n * 2)).filter (fun e => !tooOld cutoff e)).take
            n).map
            (mkArticle src.name ((src.category).getD ("General".toList)))) := by
  intro src outcome cutoff n
  refine ⟨?_, fun e h => by simp [tooOld, h], fun entries h => ?_⟩
  · intro a ha d hd
    cases outcome with
    | exn reason => simp [fetch_feed] at ha
    | ok entries =>
      rw [fetch_feed_ok_eq] at ha
      obtain ⟨e, he, rfl⟩ := List.mem_map.1 ha
      have hok : (!tooOld cutoff e) = true :=
        (List.mem_filter.1 (List.mem_of_mem_take he)).2
      have hpp : parse_published e = some d := by simpa [mkArticle] using hd
      have hfalse : tooOld cutoff e = false := by simpa using hok
      rw [tooOld, hpp] at hfalse
      simp only [pyDTlt, decide_eq_false_iff_not] at hfalse
      exact le_of_not_lt hfalse
  · subst h; exact fetch_feed_ok_eq src entries cutoff n

/-- Witness for C3: a concrete feed with one fresh dated entry; the returned
article's timestamp is at or after the cutoff. -/
theorem fetch_feed_age_filter_witness :
    dtKey ⟨2026, 10, 11, 0, 0, 0, 0⟩ ≤ dtKey ⟨2026, 10, 12, 3, 4, 5, 0⟩ :=
  (fetch_feed_age_filter ⟨"u".toList, "n".toList, none⟩
      (.ok [Entry.mk none none none
        (some ⟨2026, 10, 12, 3, 4, 5, 1, 285, 0⟩) none])
      ⟨2026, 10, 11, 0, 0, 0, 0⟩ 10).1
    (mkArticle ("n".toList) ("General".toList)
      (Entry.mk none none none (some ⟨2026, 10, 12, 3, 4, 5, 1, 285, 0⟩) none))
    (by decide) ⟨2026, 10, 12, 3, 4, 5, 0⟩ (by decide)

/-- C4: a successful fetch scans only the first `2 × max_articles` raw
entries, returns at most `max_articles` articles, and the returned articles
are the parses of a subsequence of those scanned entries, in upstream
order. -/
theorem fetch_feed_cap :
    ∀ (src : FeedSource) (entries : List Entry) (cutoff : PyDateTime)
      (n : Nat),
    (fetch_feed src (.ok entries) cutoff n).length ≤ n
    ∧ ∃ sub : List Entry, sub.Sublist (entries.take (n * 2))
        ∧ fetch_feed src (.ok entries) cutoff n =
            sub.map (mkArticle src.name ((src.category).getD
              ("General".toList))) := by
  intro src entries cutoff n
  rw [fetch_feed_ok_eq]
  refine ⟨?_, _, (List.take_sublist _ _).trans (List.filter_sublist _), rfl⟩
  simp [List.length_take]

/-! ### Lemmas about the grouping loop -/

/-- One `setdefault`/`append` step, seen through `lookup`. -/
theorem lookup_updateGroups (c : List Char)
    (gs : List (List Char × List Article)) (a : Article) :
    List.lookup c (updateGroups gs a) =
      if c = a.category then some (((List.lookup c gs).getD []) ++ [a])
      else List.lookup c gs := by
  induction gs with
  | nil =>
    by_cases h : c = a.category <;>
      simp [updateGroups, List.lookup, h, beq_eq_decide]
  | cons p rest ih =>
    obtain ⟨k, b⟩ := p
    by_cases hk : k = a.category
    · by_cases hc : c = a.category
      · simp [updateGroups, hk, List.lookup, hc, hk ▸ hc, beq_eq_decide]
      · have h2 : ¬ c = k := fun h => hc (h.trans hk)
        simp [updateGroups, hk, List.lookup, hc, h2, beq_eq_decide]
    · by_cases hck : c = k
      · have h2 : ¬ c = a.category := fun h => hk ((hck.symm.trans h))
        simp [updateGroups, hk, List.lookup, hck, h2, beq_eq_decide]
      · simp [updateGroups, hk, List.lookup, hck, ih, beq_eq_decide]

/-- `lookup` after folding the grouping step over a list of articles. -/
theorem lookup_foldl_updateGroups (c : List Char) (l : List Article) :
    ∀ gs : List (List Char × List Article),
    List.lookup c (l.foldl updateGroups gs) =
      match List.lookup c gs, l.filter (fun a => decide (a.category = c)) with
      | some b, f => some (b ++ f)
      | none, [] => none
      | none, f => some f := by
  induction l with
  | nil =>
    intro gs
    cases h : List.lookup c gs <;> simp [h]
  | cons a l ih =>
    intro gs
    rw [List.foldl_cons, ih (updateGroups gs a), lookup_updateGroups]
    by_cases hc : c = a.category
    · have hcat : decide (a.category = c) = true := decide_eq_true hc.symm
      cases h : List.lookup c gs <;>
        simp [hc, h, List.filter_cons, hcat]
    · have hcat : decide (a.category = c) = false :=
        decide_eq_false (fun h2 => hc h2.symm)
      cases h : List.lookup c gs <;>
        simp [hc, h, List.filter_cons, hcat]

/-- The grouping of a list of articles, seen through `lookup`: the bucket of
`c` is exactly the filter of the list on category `c` (absent when empty). -/
theorem lookup_groupByCategory (m : List Article) (c : List Char) :
    List.lookup c (groupByCategory m) =
      if (m.filter (fun a => decide (a.category = c))).isEmpty then none
      else some (m.filter (fun a => decide (a.category = c))) := by
  unfold groupByCategory
  rw [lookup_foldl_updateGroups]
  cases h : m.filter (fun a => decide (a.category = c)) <;> simp [h, List.lookup]

/-- Each grouping step grows the total bucket mass by exactly one. -/
theorem sum_updateGroups (gs : List (List Char × List Article)) (a : Article) :
    ((updateGroups gs a).map (fun p => p.2.length)).sum
      = ((gs.map (fun p => p.2.length)).sum) + 1 := by
  induction gs with
  | nil => simp [updateGroups]
  | cons p rest ih =>
    obtain ⟨k, b⟩ := p
    by_cases h : k = a.category <;> simp [updateGroups, h, ih] <;> omega

/-- Folding the grouping step adds the list's length to the bucket mass. -/
theorem sum_foldl_updateGroups (l : List Article) :
    ∀ gs : List (List Char × List Article),
    (((l.foldl updateGroups gs).map (fun p => p.2.length)).sum)
      = ((gs.map (fun p => p.2.length)).sum) + l.length := by
  induction l with
  | nil => intro gs; simp
  | cons a l ih =>
    intro gs
    rw [List.foldl_cons, ih (updateGroups gs a), sum_updateGroups]
    simp; omega

/-- The grouping step leaves the key sequence unchanged, or appends the new
category at the end. -/
theorem keys_updateGroups (gs : List (List Char × List Article)) (a : Article) :
    (updateGroups gs a).map Prod.fst =
      if a.category ∈ gs.map Prod.fst then gs.map Prod.fst
      else gs.map Prod.fst ++ [a.category] := by
  induction gs with
  | nil => simp [updateGroups]
  | cons p rest ih =>
    obtain ⟨k, b⟩ := p
    by_cases h : k = a.category
    · simp [updateGroups, h]
    · have : ¬ a.category = k := fun h2 => h h2.symm
      by_cases hmem : a.category ∈ rest.map Prod.fst <;>
        simp [updateGroups, h, this, hmem, ih]

/-- Folding the grouping step preserves distinctness of the keys. -/
theorem keys_nodup_foldl (l : List Article) :
    ∀ gs : List (List Char × List Article),
    (gs.map Prod.fst).Nodup → ((l.foldl updateGroups gs).map Prod.fst).Nodup := by
  induction l with
  | nil => intro gs h; simpa using h
  | cons a l ih =>
    intro gs h
    rw [List.foldl_cons]
    refine ih (updateGroups gs a) ?_
    rw [keys_updateGroups]
    by_cases hmem : a.category ∈ gs.map Prod.fst
    · simpa [hmem] using h
    · simp [hmem, List.nodup_append, h]

/-- C5: grouping the globally sorted sequence maps each category to exactly
the subsequence of sorted articles carrying that category, in the same
relative order (pure bucket membership, no re-sorting); a category with no
articles has no bucket. -/
theorem grouping_buckets :
    ∀ (l : List Article) (c : List Char),
    List.lookup c (groupByCategory (sortArticles l)) =
      if ((sortArticles l).filter (fun a => decide (a.category = c))).isEmpty
      then none
      else some ((sortArticles l).filter (fun a => decide (a.category = c))) :=
  fun l c => lookup_groupByCategory (sortArticles l) c

/-- C10: the grouping partitions the collected (sorted) article sequence:
bucket masses sum to the total count, the sort preserves the count, every
article lands in the bucket of its own category, buckets contain only
articles of their key from the sequence, and keys are pairwise distinct. -/
theorem grouping_partition :
    ∀ l : List Article,
    (((groupByCategory (sortArticles l)).map (fun p => p.2.length)).sum
        = (sortArticles l).length)
    ∧ ((sortArticles l).length = l.length)
    ∧ (∀ a ∈ sortArticles l, ∃ b,
        List.lookup a.category (groupByCategory (sortArticles l)) = some b
        ∧ a ∈ b)
    ∧ (∀ (c : List Char) (b : List Article),
        List.lookup c (groupByCategory (sortArticles l)) = some b →
        ∀ a ∈ b, a.category = c ∧ a ∈ sortArticles l)
    ∧ ((groupByCategory (sortArticles l)).map Prod.fst).Nodup := by
  intro l
  refine ⟨?_, by simp [sortArticles], ?_, ?_, ?_⟩
  · unfold groupByCategory
    rw [sum_foldl_updateGroups]
    simp
  · intro a ha
    have hmem : a ∈ (sortArticles l).filter
        (fun x => decide (x.category = a.category)) :=
      List.mem_filter.2 ⟨ha, by simp⟩
    have hne : ¬ ((sortArticles l).filter
        (fun x => decide (x.category = a.category))).isEmpty = true := by
      intro h
      rw [List.isEmpty_iff] at h
      simp [h] at hmem
    refine ⟨_, ?_, hmem⟩
    rw [lookup_groupByCategory, if_neg hne]
  · intro c b hb a ha
    rw [lookup_groupByCategory] at hb
    by_cases h : ((sortArticles l).filter
        (fun x => decide (x.category = c))).isEmpty = true
    · simp [h] at hb
    · rw [if_neg h] at hb
      obtain rfl : (sortArticles l).filter (fun x => decide (x.category = c)) = b :=
        Option.some.inj hb
      have := List.mem_filter.1 ha
      exact ⟨of_decide_eq_true this.2, this.1⟩
  · exact keys_nodup_foldl (sortArticles l) [] (by simp)

/-- Witness for C10 on a concrete one-article run: the article is found in
the bucket of its own category. -/
theorem grouping_partition_witness :
    ∃ b, List.lookup ("Tech".toList)
        (groupByCategory (sortArticles
          [Article.mk ("t".toList) ("#".toList) [] none
            ("Date unknown".toList) ("s".toList) ("Tech".toList)])) = some b
      ∧ (Article.mk ("t".toList) ("#".toList) [] none
          ("Date unknown".toList) ("s".toList) ("Tech".toList)) ∈ b :=
  (grouping_partition [Article.mk ("t".toList) ("#".toList) [] none
      ("Date unknown".toList) ("s".toList) ("Tech".toList)]).2.2.1
    (Article.mk ("t".toList) ("#".toList) [] none
      ("Date unknown".toList) ("s".toList) ("Tech".toList))
    (by simp [sortArticles])

/-- C1: after the global sort, each adjacent pair is non-increasing in the
sort key (`published`, with an absent timestamp read as `datetime.min`), and
any two articles with equal sort keys keep their relative pre-sort order
(stable descending sort). -/
theorem sortArticles_sorted_stable :
    ∀ l : List Article,
    List.Chain' (fun a b : Article => sortKey b ≤ sortKey a) (sortArticles l)
    ∧ (∀ a b : Article, sortKey a = sortKey b → [a, b].Sublist l →
        [a, b].Sublist (sortArticles l)) := by
  have htrans : ∀ a b c : Article,
      decide (sortKey b ≤ sortKey a) = true →
      decide (sortKey c ≤ sortKey b) = true →
      decide (sortKey c ≤ sortKey a) = true := by
    intro a b c h1 h2
    rw [decide_eq_true_iff] at *
    exact le_trans h2 h1
  have htotal : ∀ a b : Article,
      (decide (sortKey b ≤ sortKey a) || decide (sortKey a ≤ sortKey b))
        = true := by
    intro a b
    simpa [Bool.or_eq_true, decide_eq_true_iff] using
      le_total (sortKey b) (sortKey a)
  intro l
  constructor
  · have hp := @List.sorted_mergeSort Article
      (fun a b : Article => decide (sortKey b ≤ sortKey a)) htrans htotal l
    exact (hp.imp (fun h => of_decide_eq_true h)).chain'
  · intro a b hk hsub
    have hpair : List.Pairwise
        (fun x y : Article => decide (sortKey y ≤ sortKey x) = true) [a, b] := by
      simp [List.pairwise_cons, decide_eq_true_iff]
      exact hk.ge
    exact List.sublist_mergeSort htrans htotal hpair hsub

/-- Witness for C1: two distinct undated articles (equal sort keys) keep
their original relative order through the sort. -/
theorem sortArticles_sorted_stable_witness :
    [Article.mk ("a1".toList) ("#".toList) [] none ("Date unknown".toList)
        ("s".toList) ("Tech".toList),
      Article.mk ("a2".toList) ("#".toList) [] none ("Date unknown".toList)
        ("s".toList) ("News".toList)].Sublist
      (sortArticles
        [Article.mk ("a1".toList) ("#".toList) [] none ("Date unknown".toList)
          ("s".toList) ("Tech".toList),
        Article.mk ("a2".toList) ("#".toList) [] none ("Date unknown".toList)
          ("s".toList) ("News".toList)]) :=
  (sortArticles_sorted_stable _).2 _ _ rfl (List.Sublist.refl _)

/-- C6: when the normalized (tag-stripped, entity-decoded,
whitespace-collapsed) text exceeds 280 characters, the summary is exactly
its first 280 characters plus a single ellipsis character (length 281);
otherwise it is the normalized text unchanged; hence every summary is at
most 280 characters long or exactly 281 ending in the ellipsis. -/
theorem clean_summary_truncation :
    ∀ raw : List Char,
    (280 < (collapseWs (decodeEntities (stripTags raw))).length →
      _clean_summary raw =
        (collapseWs (decodeEntities (stripTags raw))).take 280 ++ ['…']
      ∧ (_clean_summary raw).length = 281)
    ∧ ((collapseWs (decodeEntities (stripTags raw))).length ≤ 280 →
      _clean_summary raw = collapseWs (decodeEntities (stripTags raw)))
    ∧ ((_clean_summary raw).length ≤ 280
        ∨ ((_clean_summary raw).length = 281
            ∧ (_clean_summary raw).getLast? = some '…')) := by
  intro raw
  by_cases h : 280 < (collapseWs (decodeEntities (stripTags raw))).length
  · have heq : _clean_summary raw =
        (collapseWs (decodeEntities (stripTags raw))).take 280 ++ ['…'] := by
      simp only [_clean_summary]
      rw [if_pos h]
    have hlen : (_clean_summary raw).length = 281 := by
      rw [heq]
      simp [List.length_take, Nat.min_eq_left (le_of_lt h)]
    refine ⟨fun _ => ⟨heq, hlen⟩, fun h2 => absurd h (not_lt.2 h2), Or.inr ⟨hlen, ?_⟩⟩
    rw [heq, List.getLast?_concat]
  · have heq : _clean_summary raw = collapseWs (decodeEntities (stripTags raw)) := by
      simp only [_clean_summary]
      rw [if_neg h]
    exact ⟨fun h2 => absurd h2 h, fun _ => heq,
      Or.inl (by rw [heq]; exact not_lt.1 h)⟩

/-- Witness for C6: a 400-character plain input yields 281 characters; a
50-character plain input is returned unchanged. -/
theorem clean_summary_truncation_witness :
    (_clean_summary (List.replicate 400 'a')).length = 281
    ∧ _clean_summary (List.replicate 50 'b') = List.replicate 50 'b' :=
  ⟨((clean_summary_truncation (List.replicate 400 'a')).1 (by decide)).2,
    ((clean_summary_truncation (List.replicate 50 'b')).2.1 (by decide)).trans
      (by decide)⟩

/-! ### Lemmas about entity decoding (for C8) -/

theorem isPrefixOf_exists (p : List Char) :
    ∀ l, p.isPrefixOf l = true → ∃ t, l = p ++ t := by
  induction p with
  | nil => intro l _; exact ⟨l, rfl⟩
  | cons c p ih =>
    intro l h
    cases l with
    | nil => simp [List.isPrefixOf] at h
    | cons d t =>
      simp only [List.isPrefixOf, Bool.and_eq_true, beq_iff_eq] at h
      obtain ⟨rfl, h2⟩ := h
      obtain ⟨t2, rfl⟩ := ih t h2
      exact ⟨t2, rfl⟩

theorem isPrefixOf_append_self (p : List Char) :
    ∀ t, p.isPrefixOf (p ++ t) = true := by
  induction p with
  | nil => intro t; simp [List.isPrefixOf]
  | cons c p ih => intro t; simp [List.isPrefixOf, ih]

theorem isPrefixOf_head_ne (a c : Char) (p x : List Char) (h : ¬ a = c) :
    ((a :: p).isPrefixOf (c :: x)) = false := by
  simp [List.isPrefixOf, beq_eq_decide, h]

theorem containsSeq_of_isPrefixOf (p l : List Char)
    (h : p.isPrefixOf l = true) : containsSeq p l = true := by
  cases l with
  | nil =>
    cases p with
    | nil => rfl
    | cons c t => simp [List.isPrefixOf] at h
  | cons c t => simp [containsSeq, h]

theorem containsSeq_tail (p : List Char) (c : Char) (t : List Char)
    (h : containsSeq p (c :: t) = false) : containsSeq p t = false := by
  simp only [containsSeq, Bool.or_eq_false_iff] at h
  exact h.2

theorem noDoubleEscape_tail (c : Char) (t : List Char)
    (h : noDoubleEscape (c :: t) = true) : noDoubleEscape t = true := by
  simp only [noDoubleEscape, Bool.and_eq_true, Bool.not_eq_true'] at h ⊢
  exact ⟨⟨⟨containsSeq_tail _ _ _ h.1.1.1, containsSeq_tail _ _ _ h.1.1.2⟩,
    containsSeq_tail _ _ _ h.1.2⟩, containsSeq_tail _ _ _ h.2⟩

theorem replaceAmp_append (t : List Char) :
    replaceAmp (['&', 'a', 'm', 'p', ';'] ++ t) = '&' :: replaceAmp t := rfl

theorem replaceAmp_cons (c : Char) (t : List Char)
    (h : ((['&', 'a', 'm', 'p', ';'] : List Char).isPrefixOf (c :: t)) = false) :
    replaceAmp (c :: t) = c :: replaceAmp t := by
  rw [replaceAmp.eq_def]
  split
  · rename_i rest heq
    injection heq with h1 h2
    subst h1; subst h2
    simp [List.isPrefixOf] at h
  · rename_i c2 rest heq
    injection heq with h1 h2
    subst h1; subst h2; rfl
  · rename_i heq
    exact absurd heq (by simp)

theorem replaceAmp_inv (c : Char) (y l : List Char) (hne : ¬ c = '&')
    (h : replaceAmp l = c :: y) : ∃ t, l = c :: t ∧ y = replaceAmp t := by
  cases l with
  | nil => simp [replaceAmp] at h
  | cons c1 t1 =>
    by_cases hpre : ((['&', 'a', 'm', 'p', ';'] : List Char).isPrefixOf
        (c1 :: t1)) = true
    · obtain ⟨t2, heq2⟩ := isPrefixOf_exists _ _ hpre
      rw [heq2, replaceAmp_append] at h
      injection h with h1 h2
      exact absurd h1.symm hne
    · rw [replaceAmp_cons c1 t1 (Bool.not_eq_true _ ▸ hpre)] at h
      injection h with h1 h2
      subst h1
      exact ⟨t1, rfl, h2.symm⟩

theorem isPrefixOf_replaceAmp (p : List Char) (hp : '&' ∉ p) :
    ∀ l, (p.isPrefixOf (replaceAmp l)) = true → (p.isPrefixOf l) = true := by
  induction p with
  | nil => intro l _; simp [List.isPrefixOf]
  | cons c p ih =>
    intro l h
    cases hr : replaceAmp l with
    | nil => rw [hr] at h; simp [List.isPrefixOf] at h
    | cons d y =>
      rw [hr] at h
      simp only [List.isPrefixOf, Bool.and_eq_true, beq_iff_eq] at h
      obtain ⟨rfl, h2⟩ := h
      have hcne : ¬ c = '&' := fun he => hp (he ▸ List.mem_cons_self c p)
      obtain ⟨t, rfl, hy⟩ := replaceAmp_inv c y l hcne hr
      have hmem : '&' ∉ p := fun hm => hp (List.mem_cons_of_mem c hm)
      have := ih hmem t (hy ▸ h2)
      simp [List.isPrefixOf, this]

theorem replaceLt_append (t : List Char) :
    replaceLt (['&', 'l', 't', ';'] ++ t) = '<' :: replaceLt t := rfl

theorem replaceLt_cons (c : Char) (t : List Char)
    (h : ((['&', 'l', 't', ';'] : List Char).isPrefixOf (c :: t)) = false) :
    replaceLt (c :: t) = c :: replaceLt t := by
  rw [replaceLt.eq_def]
  split
  · rename_i rest heq
    injection heq with h1 h2
    subst h1; subst h2
    simp [List.isPrefixOf] at h
  · rename_i c2 rest heq
    injection heq with h1 h2
    subst h1; subst h2; rfl
  · rename_i heq
    exact absurd heq (by simp)

theorem replaceLt_inv (c : Char) (y l : List Char) (hne : ¬ c = '<')
    (h : replaceLt l = c :: y) : ∃ t, l = c :: t ∧ y = replaceLt t := by
  cases l with
  | nil => simp [replaceLt] at h
  | cons c1 t1 =>
    by_cases hpre : ((['&', 'l', 't', ';'] : List Char).isPrefixOf
        (c1 :: t1)) = true
    · obtain ⟨t2, heq2⟩ := isPrefixOf_exists _ _ hpre
      rw [heq2, replaceLt_append] at h
      injection h with h1 h2
      exact absurd h1.symm hne
    · rw [replaceLt_cons c1 t1 (Bool.not_eq_true _ ▸ hpre)] at h
      injection h with h1 h2
      subst h1
      exact ⟨t1, rfl, h2.symm⟩

theorem isPrefixOf_replaceLt (p : List Char) (hp : '<' ∉ p) :
    ∀ l, (p.isPrefixOf (replaceLt l)) = true → (p.isPrefixOf l) = true := by
  induction p with
  | nil => intro l _; simp [List.isPrefixOf]
  | cons c p ih =>
    intro l h
    cases hr : replaceLt l with
    | nil => rw [hr] at h; simp [List.isPrefixOf] at h
    | cons d y =>
      rw [hr] at h
      simp only [List.isPrefixOf, Bool.and_eq_true, beq_iff_eq] at h
      obtain ⟨rfl, h2⟩ := h
      have hcne : ¬ c = '<' := fun he => hp (he ▸ List.mem_cons_self c p)
      obtain ⟨t, rfl, hy⟩ := replaceLt_inv c y l hcne hr
      have hmem : '<' ∉ p := fun hm => hp (List.mem_cons_of_mem c hm)
      have := ih hmem t (hy ▸ h2)
      simp [List.isPrefixOf, this]

theorem replaceGt_append (t : List Char) :
    replaceGt (['&', 'g', 't', ';'] ++ t) = '>' :: replaceGt t := rfl

theorem replaceGt_cons (c : Char) (t : List Char)
    (h : ((['&', 'g', 't', ';'] : List Char).isPrefixOf (c :: t)) = false) :
    replaceGt (c :: t) = c :: replaceGt t := by
  rw [replaceGt.eq_def]
  split
  · rename_i rest heq
    injection heq with h1 h2
    subst h1; subst h2
    simp [List.isPrefixOf] at h
  · rename_i c2 rest heq
    injection heq with h1 h2
    subst h1; subst h2; rfl
  · rename_i heq
    exact absurd heq (by simp)

theorem replaceGt_inv (c : Char) (y l : List Char) (hne : ¬ c = '>')
    (h : replaceGt l = c :: y) : ∃ t, l = c :: t ∧ y = replaceGt t := by
  cases l with
  | nil => simp [replaceGt] at h
  | cons c1 t1 =>
    by_cases hpre : ((['&', 'g', 't', ';'] : List Char).isPrefixOf
        (c1 :: t1)) = true
    · obtain ⟨t2, heq2⟩ := isPrefixOf_exists _ _ hpre
      rw [heq2, replaceGt_append] at h
      injection h with h1 h2
      exact absurd h1.symm hne
    · rw [replaceGt_cons c1 t1 (Bool.not_eq_true _ ▸ hpre)] at h
      injection h with h1 h2
      subst h1
      exact ⟨t1, rfl, h2.symm⟩

theorem isPrefixOf_replaceGt (p : List Char) (hp : '>' ∉ p) :
    ∀ l, (p.isPrefixOf (replaceGt l)) = true → (p.isPrefixOf l) = true := by
  induction p with
  | nil => intro l _; simp [List.isPrefixOf]
  | cons c p ih =>
    intro l h
    cases hr : replaceGt l with
    | nil => rw [hr] at h; simp [List.isPrefixOf] at h
    | cons d y =>
      rw [hr] at h
      simp only [List.isPrefixOf, Bool.and_eq_true, beq_iff_eq] at h
      obtain ⟨rfl, h2⟩ := h
      have hcne : ¬ c = '>' := fun he => hp (he ▸ List.mem_cons_self c p)
      obtain ⟨t, rfl, hy⟩ := replaceGt_inv c y l hcne hr
      have hmem : '>' ∉ p := fun hm => hp (List.mem_cons_of_mem c hm)
      have := ih hmem t (hy ▸ h2)
      simp [List.isPrefixOf, this]

theorem replaceApos_append (t : List Char) :
    replaceApos (['&', '#', '3', '9', ';'] ++ t) = '\'' :: replaceApos t := rfl

theorem replaceApos_cons (c : Char) (t : List Char)
    (h : ((['&', '#', '3', '9', ';'] : List Char).isPrefixOf (c :: t))
      = false) :
    replaceApos (c :: t) = c :: replaceApos t := by
  rw [replaceApos.eq_def]
  split
  · rename_i rest heq
    injection heq with h1 h2
    subst h1; subst h2
    simp [List.isPrefixOf] at h
  · rename_i c2 rest heq
    injection heq with h1 h2
    subst h1; subst h2; rfl
  · rename_i heq
    exact absurd heq (by simp)

theorem replaceApos_inv (c : Char) (y l : List Char) (hne : ¬ c = '\'')
    (h : replaceApos l = c :: y) : ∃ t, l = c :: t ∧ y = replaceApos t := by
  cases l with
  | nil => simp [replaceApos] at h
  | cons c1 t1 =>
    by_cases hpre : ((['&', '#', '3', '9', ';'] : List Char).isPrefixOf
        (c1 :: t1)) = true
    · obtain ⟨t2, heq2⟩ := isPrefixOf_exists _ _ hpre
      rw [heq2, replaceApos_append] at h
      injection h with h1 h2
      exact absurd h1.symm hne
    · rw [replaceApos_cons c1 t1 (Bool.not_eq_true _ ▸ hpre)] at h
      injection h with h1 h2
      subst h1
      exact ⟨t1, rfl, h2.symm⟩

theorem isPrefixOf_replaceApos (p : List Char) (hp : '\'' ∉ p) :
    ∀ l, (p.isPrefixOf (replaceApos l)) = true → (p.isPrefixOf l) = true := by
  induction p with
  | nil => intro l _; simp [List.isPrefixOf]
  | cons c p ih =>
    intro l h
    cases hr : replaceApos l with
    | nil => rw [hr] at h; simp [List.isPrefixOf] at h
    | cons d y =>
      rw [hr] at h
      simp only [List.isPrefixOf, Bool.and_eq_true, beq_iff_eq] at h
      obtain ⟨rfl, h2⟩ := h
      have hcne : ¬ c = '\'' := fun he => hp (he ▸ List.mem_cons_self c p)
      obtain ⟨t, rfl, hy⟩ := replaceApos_inv c y l hcne hr
      have hmem : '\'' ∉ p := fun hm => hp (List.mem_cons_of_mem c hm)
      have := ih hmem t (hy ▸ h2)
      simp [List.isPrefixOf, this]

theorem replaceQuot_append (t : List Char) :
    replaceQuot (['&', 'q', 'u', 'o', 't', ';'] ++ t)
      = '"' :: replaceQuot t := rfl

theorem replaceQuot_cons (c : Char) (t : List Char)
    (h : ((['&', 'q', 'u', 'o', 't', ';'] : List Char).isPrefixOf (c :: t))
      = false) :
    replaceQuot (c :: t) = c :: replaceQuot t := by
  rw [replaceQuot.eq_def]
  split
  · rename_i rest heq
    injection heq with h1 h2
    subst h1; subst h2
    simp [List.isPrefixOf] at h
  · rename_i c2 rest heq
    injection heq with h1 h2
    subst h1; subst h2; rfl
  · rename_i heq
    exact absurd heq (by simp)

theorem replaceQuot_inv (c : Char) (y l : List Char) (hne : ¬ c = '"')
    (h : replaceQuot l = c :: y) : ∃ t, l = c :: t ∧ y = replaceQuot t := by
  cases l with
  | nil => simp [replaceQuot] at h
  | cons c1 t1 =>
    by_cases hpre : ((['&', 'q', 'u', 'o', 't', ';'] : List Char).isPrefixOf
        (c1 :: t1)) = true
    · obtain ⟨t2, heq2⟩ := isPrefixOf_exists _ _ hpre
      rw [heq2, replaceQuot_append] at h
      injection h with h1 h2
      exact absurd h1.symm hne
    · rw [replaceQuot_cons c1 t1 (Bool.not_eq_true _ ▸ hpre)] at h
      injection h with h1 h2
      subst h1
      exact ⟨t1, rfl, h2.symm⟩

theorem specDecode_amp (t : List Char) :
    specDecodeEntities (['&', 'a', 'm', 'p', ';'] ++ t)
      = '&' :: specDecodeEntities t := rfl

theorem specDecode_lt (t : List Char) :
    specDecodeEntities (['&', 'l', 't', ';'] ++ t)
      = '<' :: specDecodeEntities t := rfl

theorem specDecode_gt (t : List Char) :
    specDecodeEntities (['&', 'g', 't', ';'] ++ t)
      = '>' :: specDecodeEntities t := rfl

theorem specDecode_apos (t : List Char) :
    specDecodeEntities (['&', '#', '3', '9', ';'] ++ t)
      = '\'' :: specDecodeEntities t := rfl

theorem specDecode_quot (t : List Char) :
    specDecodeEntities (['&', 'q', 'u', 'o', 't', ';'] ++ t)
      = '"' :: specDecodeEntities t := rfl

theorem specDecode_cons (c : Char) (t : List Char)
    (h1 : ((['&', 'a', 'm', 'p', ';'] : List Char).isPrefixOf (c :: t)) = false)
    (h2 : ((['&', 'l', 't', ';'] : List Char).isPrefixOf (c :: t)) = false)
    (h3 : ((['&', 'g', 't', ';'] : List Char).isPrefixOf (c :: t)) = false)
    (h4 : ((['&', '#', '3', '9', ';'] : List Char).isPrefixOf (c :: t)) = false)
    (h5 : ((['&', 'q', 'u', 'o', 't', ';'] : List Char).isPrefixOf (c :: t))
      = false) :
    specDecodeEntities (c :: t) = c :: specDecodeEntities t := by
  rw [specDecodeEntities.eq_def]
  split
  · rename_i rest heq
    injection heq with e1 e2
    subst e1; subst e2
    simp [List.isPrefixOf] at h1
  · rename_i rest heq
    injection heq with e1 e2
    subst e1; subst e2
    simp [List.isPrefixOf] at h2
  · rename_i rest heq
    injection heq with e1 e2
    subst e1; subst e2
    simp [List.isPrefixOf] at h3
  · rename_i rest heq
    injection heq with e1 e2
    subst e1; subst e2
    simp [List.isPrefixOf] at h4
  · rename_i rest heq
    injection heq with e1 e2
    subst e1; subst e2
    simp [List.isPrefixOf] at h5
  · rename_i c2 rest heq
    injection heq with e1 e2
    subst e1; subst e2; rfl
  · rename_i heq
    exact absurd heq (by simp)

/-- Helper for the `&amp;`-prefix case: a double-escape pattern that is
absent from `&amp; ++ t` means its suffix cannot start `t`. -/
theorem suffix_not_start (suf t : List Char)
    (hcs : containsSeq (['&', 'a', 'm', 'p', ';'] ++ suf)
      (['&', 'a', 'm', 'p', ';'] ++ t) = false) :
    suf.isPrefixOf t = false := by
  by_contra hcon
  rw [Bool.not_eq_false] at hcon
  obtain ⟨t2, rfl⟩ := isPrefixOf_exists _ _ hcon
  have hone : containsSeq (['&', 'a', 'm', 'p', ';'] ++ suf)
      (['&', 'a', 'm', 'p', ';'] ++ (suf ++ t2)) = true := by
    rw [← List.append_assoc]
    exact containsSeq_of_isPrefixOf _ _ (isPrefixOf_append_self _ _)
  rw [hone] at hcs
  cases hcs

/-- Fuel-indexed agreement between the sequential replacement chain and the
single-pass decoder, on inputs without double-escaped entities. -/
theorem decodeEntities_agreeAux :
    ∀ (n : Nat) (l : List Char), l.length ≤ n → noDoubleEscape l = true →
    decodeEntities l = specDecodeEntities l := by
  intro n
  induction n with
  | zero =>
    intro l hl _
    obtain rfl : l = [] := List.eq_nil_of_length_eq_zero (Nat.le_zero.1 hl)
    rfl
  | succ n ih =>
    intro l hl hg
    by_cases hamp : ((['&', 'a', 'm', 'p', ';'] : List Char).isPrefixOf l)
      = true
    · -- an `&amp;` occurrence: its replacement may not recombine, thanks to
      -- the absence of double-escape patterns
      obtain ⟨t, rfl⟩ := isPrefixOf_exists _ _ hamp
      have hg2 := hg
      simp only [noDoubleEscape, Bool.and_eq_true, Bool.not_eq_true'] at hg2
      have hlt : (['l', 't', ';'] : List Char).isPrefixOf t = false :=
        suffix_not_start _ _ hg2.1.1.1
      have hgt : (['g', 't', ';'] : List Char).isPrefixOf t = false :=
        suffix_not_start _ _ hg2.1.1.2
      have hapos : (['#', '3', '9', ';'] : List Char).isPrefixOf t = false :=
        suffix_not_start _ _ hg2.1.2
      have hquot : (['q', 'u', 'o', 't', ';'] : List Char).isPrefixOf t
          = false := suffix_not_start _ _ hg2.2
      have hlt1 : (['l', 't', ';'] : List Char).isPrefixOf (replaceAmp t)
          = false := by
        by_contra hcon
        rw [Bool.not_eq_false] at hcon
        have h2 := isPrefixOf_replaceAmp _ (by decide) t hcon
        rw [h2] at hlt
        cases hlt
      have hgt1 : (['g', 't', ';'] : List Char).isPrefixOf
          (replaceLt (replaceAmp t)) = false := by
        by_contra hcon
        rw [Bool.not_eq_false] at hcon
        have h2 := isPrefixOf_replaceLt _ (by decide) _ hcon
        have h3 := isPrefixOf_replaceAmp _ (by decide) t h2
        rw [h3] at hgt
        cases hgt
      have hapos1 : (['#', '3', '9', ';'] : List Char).isPrefixOf
          (replaceGt (replaceLt (replaceAmp t))) = false := by
        by_contra hcon
        rw [Bool.not_eq_false] at hcon
        have h2 := isPrefixOf_replaceGt _ (by decide) _ hcon
        have h3 := isPrefixOf_replaceLt _ (by decide) _ h2
        have h4 := isPrefixOf_replaceAmp _ (by decide) t h3
        rw [h4] at hapos
        cases hapos
      have hquot1 : (['q', 'u', 'o', 't', ';'] : List Char).isPrefixOf
          (replaceApos (replaceGt (replaceLt (replaceAmp t)))) = false := by
        by_contra hcon
        rw [Bool.not_eq_false] at hcon
        have h2 := isPrefixOf_replaceApos _ (by decide) _ hcon
        have h3 := isPrefixOf_replaceGt _ (by decide) _ h2
        have h4 := isPrefixOf_replaceLt _ (by decide) _ h3
        have h5 := isPrefixOf_replaceAmp _ (by decide) t h4
        rw [h5] at hquot
        cases hquot
      have e2 : replaceLt ('&' :: replaceAmp t)
          = '&' :: replaceLt (replaceAmp t) :=
        replaceLt_cons _ _ (by simp [List.isPrefixOf, hlt1])
      have e3 : replaceGt ('&' :: replaceLt (replaceAmp t))
          = '&' :: replaceGt (replaceLt (replaceAmp t)) :=
        replaceGt_cons _ _ (by simp [List.isPrefixOf, hgt1])
      have e4 : replaceApos ('&' :: replaceGt (replaceLt (replaceAmp t)))
          = '&' :: replaceApos (replaceGt (replaceLt (replaceAmp t))) :=
        replaceApos_cons _ _ (by simp [List.isPrefixOf, hapos1])
      have e5 : replaceQuot
            ('&' :: replaceApos (replaceGt (replaceLt (replaceAmp t))))
          = '&' :: replaceQuot
            (replaceApos (replaceGt (replaceLt (replaceAmp t)))) :=
        replaceQuot_cons _ _ (by simp [List.isPrefixOf, hquot1])
      have htail : noDoubleEscape t = true :=
        noDoubleEscape_tail _ _ (noDoubleEscape_tail _ _
          (noDoubleEscape_tail _ _ (noDoubleEscape_tail _ _
            (noDoubleEscape_tail _ _ hg))))
      have hlen : t.length ≤ n := by
        simp only [List.length_append, List.length_cons, List.length_nil]
          at hl
        omega
      calc decodeEntities (['&', 'a', 'm', 'p', ';'] ++ t)
          = '&' :: decodeEntities t := by
            simp only [decodeEntities, replaceAmp_append, e2, e3, e4, e5]
        _ = '&' :: specDecodeEntities t := by rw [ih t hlen htail]
        _ = specDecodeEntities (['&', 'a', 'm', 'p', ';'] ++ t) :=
            (specDecode_amp t).symm
    · by_cases hltP : ((['&', 'l', 't', ';'] : List Char).isPrefixOf l) = true
      · obtain ⟨t, rfl⟩ := isPrefixOf_exists _ _ hltP
        have htail : noDoubleEscape t = true :=
          noDoubleEscape_tail _ _ (noDoubleEscape_tail _ _
            (noDoubleEscape_tail _ _ (noDoubleEscape_tail _ _ hg)))
        have hlen : t.length ≤ n := by
          simp only [List.length_append, List.length_cons, List.length_nil]
            at hl
          omega
        calc decodeEntities (['&', 'l', 't', ';'] ++ t)
            = '<' :: decodeEntities t := rfl
          _ = '<' :: specDecodeEntities t := by rw [ih t hlen htail]
          _ = specDecodeEntities (['&', 'l', 't', ';'] ++ t) := rfl
      · by_cases hgtP : ((['&', 'g', 't', ';'] : List Char).isPrefixOf l)
          = true
        · obtain ⟨t, rfl⟩ := isPrefixOf_exists _ _ hgtP
          have htail : noDoubleEscape t = true :=
            noDoubleEscape_tail _ _ (noDoubleEscape_tail _ _
              (noDoubleEscape_tail _ _ (noDoubleEscape_tail _ _ hg)))
          have hlen : t.length ≤ n := by
            simp only [List.length_append, List.length_cons, List.length_nil]
              at hl
            omega
          calc decodeEntities (['&', 'g', 't', ';'] ++ t)
              = '>' :: decodeEntities t := rfl
            _ = '>' :: specDecodeEntities t := by rw [ih t hlen htail]
            _ = specDecodeEntities (['&', 'g', 't', ';'] ++ t) := rfl
        · by_cases haposP : ((['&', '#', '3', '9', ';'] : List Char).isPrefixOf
            l) = true
          · obtain ⟨t, rfl⟩ := isPrefixOf_exists _ _ haposP
            have htail : noDoubleEscape t = true :=
              noDoubleEscape_tail _ _ (noDoubleEscape_tail _ _
                (noDoubleEscape_tail _ _ (noDoubleEscape_tail _ _
                  (noDoubleEscape_tail _ _ hg))))
            have hlen : t.length ≤ n := by
              simp only [List.length_append, List.length_cons,
                List.length_nil] at hl
              omega
            calc decodeEntities (['&', '#', '3', '9', ';'] ++ t)
                = '\'' :: decodeEntities t := rfl
              _ = '\'' :: specDecodeEntities t := by rw [ih t hlen htail]
              _ = specDecodeEntities (['&', '#', '3', '9', ';'] ++ t) := rfl
          · by_cases hquotP : ((['&', 'q', 'u', 'o', 't', ';'] :
              List Char).isPrefixOf l) = true
            · obtain ⟨t, rfl⟩ := isPrefixOf_exists _ _ hquotP
              have htail : noDoubleEscape t = true :=
                noDoubleEscape_tail _ _ (noDoubleEscape_tail _ _
                  (noDoubleEscape_tail _ _ (noDoubleEscape_tail _ _
                    (noDoubleEscape_tail _ _
                      (noDoubleEscape_tail _ _ hg)))))
              have hlen : t.length ≤ n := by
                simp only [List.length_append, List.length_cons,
                  List.length_nil] at hl
                omega
              calc decodeEntities (['&', 'q', 'u', 'o', 't', ';'] ++ t)
                  = '"' :: decodeEntities t := rfl
                _ = '"' :: specDecodeEntities t := by rw [ih t hlen htail]
                _ = specDecodeEntities (['&', 'q', 'u', 'o', 't', ';'] ++ t)
                    := rfl
            · -- no entity starts the text
              cases l with
              | nil => rfl
              | cons c t =>
                have htail : noDoubleEscape t = true :=
                  noDoubleEscape_tail _ _ hg
                have hlen : t.length ≤ n := by
                  simp only [List.length_cons] at hl
                  omega
                by_cases hc : c = '&'
                · subst hc
                  have hamp2 : ((['&', 'a', 'm', 'p', ';'] :
                      List Char).isPrefixOf ('&' :: t)) = false :=
                    Bool.not_eq_true _ ▸ hamp
                  have hlt : (['l', 't', ';'] : List Char).isPrefixOf t
                      = false := by
                    by_contra hcon
                    rw [Bool.not_eq_false] at hcon
                    exact hltP (by simp [List.isPrefixOf, hcon])
                  have hgt : (['g', 't', ';'] : List Char).isPrefixOf t
                      = false := by
                    by_contra hcon
                    rw [Bool.not_eq_false] at hcon
                    exact hgtP (by simp [List.isPrefixOf, hcon])
                  have hapos : (['#', '3', '9', ';'] : List Char).isPrefixOf t
                      = false := by
                    by_contra hcon
                    rw [Bool.not_eq_false] at hcon
                    exact haposP (by simp [List.isPrefixOf, hcon])
                  have hquot : (['q', 'u', 'o', 't', ';'] :
                      List Char).isPrefixOf t = false := by
                    by_contra hcon
                    rw [Bool.not_eq_false] at hcon
                    exact hquotP (by simp [List.isPrefixOf, hcon])
                  have hlt1 : (['l', 't', ';'] : List Char).isPrefixOf
                      (replaceAmp t) = false := by
                    by_contra hcon
                    rw [Bool.not_eq_false] at hcon
                    have h2 := isPrefixOf_replaceAmp _ (by decide) t hcon
                    rw [h2] at hlt
                    cases hlt
                  have hgt1 : (['g', 't', ';'] : List Char).isPrefixOf
                      (replaceLt (replaceAmp t)) = false := by
                    by_contra hcon
                    rw [Bool.not_eq_false] at hcon
                    have h2 := isPrefixOf_replaceLt _ (by decide) _ hcon
                    have h3 := isPrefixOf_replaceAmp _ (by decide) t h2
                    rw [h3] at hgt
                    cases hgt
                  have hapos1 : (['#', '3', '9', ';'] : List Char).isPrefixOf
                      (replaceGt (replaceLt (replaceAmp t))) = false := by
                    by_contra hcon
                    rw [Bool.not_eq_false] at hcon
                    have h2 := isPrefixOf_replaceGt _ (by decide) _ hcon
                    have h3 := isPrefixOf_replaceLt _ (by decide) _ h2
                    have h4 := isPrefixOf_replaceAmp _ (by decide) t h3
                    rw [h4] at hapos
                    cases hapos
                  have hquot1 : (['q', 'u', 'o', 't', ';'] :
                      List Char).isPrefixOf
                      (replaceApos (replaceGt (replaceLt (replaceAmp t))))
                      = false := by
                    by_contra hcon
                    rw [Bool.not_eq_false] at hcon
                    have h2 := isPrefixOf_replaceApos _ (by decide) _ hcon
                    have h3 := isPrefixOf_replaceGt _ (by decide) _ h2
                    have h4 := isPrefixOf_replaceLt _ (by decide) _ h3
                    have h5 := isPrefixOf_replaceAmp _ (by decide) t h4
                    rw [h5] at hquot
                    cases hquot
                  have e1 : replaceAmp ('&' :: t) = '&' :: replaceAmp t :=
                    replaceAmp_cons _ _ hamp2
                  have e2 : replaceLt ('&' :: replaceAmp t)
                      = '&' :: replaceLt (replaceAmp t) :=
                    replaceLt_cons _ _ (by simp [List.isPrefixOf, hlt1])
                  have e3 : replaceGt ('&' :: replaceLt (replaceAmp t))
                      = '&' :: replaceGt (replaceLt (replaceAmp t)) :=
                    replaceGt_cons _ _ (by simp [List.isPrefixOf, hgt1])
                  have e4 : replaceApos
                        ('&' :: replaceGt (replaceLt (replaceAmp t)))
                      = '&' :: replaceApos
                        (replaceGt (replaceLt (replaceAmp t))) :=
                    replaceApos_cons _ _ (by simp [List.isPrefixOf, hapos1])
                  have e5 : replaceQuot ('&' :: replaceApos
                        (replaceGt (replaceLt (replaceAmp t))))
                      = '&' :: replaceQuot (replaceApos
                        (replaceGt (replaceLt (replaceAmp t)))) :=
                    replaceQuot_cons _ _ (by simp [List.isPrefixOf, hquot1])
                  calc decodeEntities ('&' :: t)
                      = '&' :: decodeEntities t := by
                        simp only [decodeEntities, e1, e2, e3, e4, e5]
                    _ = '&' :: specDecodeEntities t := by
                        rw [ih t hlen htail]
                    _ = specDecodeEntities ('&' :: t) :=
                        (specDecode_cons '&' t hamp2
                          (Bool.not_eq_true _ ▸ hltP)
                          (Bool.not_eq_true _ ▸ hgtP)
                          (Bool.not_eq_true _ ▸ haposP)
                          (Bool.not_eq_true _ ▸ hquotP)).symm
                · have hne : ∀ p : List Char,
                      (('&' :: p).isPrefixOf (c :: t)) = false :=
                    fun p => isPrefixOf_head_ne '&' c p t
                      (fun he => hc he.symm)
                  have e1 : replaceAmp (c :: t) = c :: replaceAmp t :=
                    replaceAmp_cons _ _ (hne _)
                  have e2 : replaceLt (c :: replaceAmp t)
                      = c :: replaceLt (replaceAmp t) :=
                    replaceLt_cons _ _ (isPrefixOf_head_ne '&' c _ _
                      (fun he => hc he.symm))
                  have e3 : replaceGt (c :: replaceLt (replaceAmp t))
                      = c :: replaceGt (replaceLt (replaceAmp t)) :=
                    replaceGt_cons _ _ (isPrefixOf_head_ne '&' c _ _
                      (fun he => hc he.symm))
                  have e4 : replaceApos
                        (c :: replaceGt (replaceLt (replaceAmp t)))
                      = c :: replaceApos
                        (replaceGt (replaceLt (replaceAmp t))) :=
                    replaceApos_cons _ _ (isPrefixOf_head_ne '&' c _ _
                      (fun he => hc he.symm))
                  have e5 : replaceQuot (c :: replaceApos
                        (replaceGt (replaceLt (replaceAmp t))))
                      = c :: replaceQuot (replaceApos
                        (replaceGt (replaceLt (replaceAmp t)))) :=
                    replaceQuot_cons _ _ (isPrefixOf_head_ne '&' c _ _
                      (fun he => hc he.symm))
                  calc decodeEntities (c :: t)
                      = c :: decodeEntities t := by
                        simp only [decodeEntities, e1, e2, e3, e4, e5]
                    _ = c :: specDecodeEntities t := by rw [ih t hlen htail]
                    _ = specDecodeEntities (c :: t) :=
                        (specDecode_cons c t (hne _) (hne _) (hne _) (hne _)
                          (hne _)).symm

/-- Counterexample for C8 as stated: on `&amp;lt;` the chain of sequential
replacements decodes twice — the `&` produced by the `&amp;` pass merges
with the following `lt;` and the `&lt;` pass turns it into `<` — whereas a
decoder that decodes exactly the five entities and alters nothing else
yields `&lt;`. -/
theorem decode_entities_counterexample :
    decodeEntities ("&amp;lt;".toList) = ("<".toList)
    ∧ specDecodeEntities ("&amp;lt;".toList) = ("&lt;".toList)
    ∧ decodeEntities ("&amp;lt;".toList)
        ≠ specDecodeEntities ("&amp;lt;".toList) :=
  ⟨by decide, by decide, by decide⟩

/-- C8 (amended): the five entities are decoded by sequential whole-string
replacement in the order `&amp; &lt; &gt; &#39; &quot;`; on every input
containing none of the double-escaped sequences `&amp;lt;`, `&amp;gt;`,
`&amp;#39;`, `&amp;quot;` this decodes exactly the five entities and alters
no other entity sequence (it agrees with the single-pass five-entity
decoder), and the spec's example input decodes to `A & B <tag>`. -/
theorem decode_entities_agree :
    (∀ l : List Char, noDoubleEscape l = true →
      decodeEntities l = specDecodeEntities l)
    ∧ decodeEntities ("A &amp; B &lt;tag&gt;".toList)
        = ("A & B <tag>".toList) :=
  ⟨fun l h => decodeEntities_agreeAux l.length l le_rfl h, by decide⟩

/-- Witness for C8's amended claim at the spec's example input. -/
theorem decode_entities_agree_witness :
    decodeEntities ("A &amp; B &lt;tag&gt;".toList)
      = specDecodeEntities ("A &amp; B &lt;tag&gt;".toList) :=
  decode_entities_agree.1 _ (by decide)
